import Mathlib

/-!
Verification of the `graw` Go library (a draw.io / mxGraph XML diagram model
builder).  Go strings are modelled as lists of characters, Go maps
(`map[string]string`) as association lists whose assignment operation is
last-write-wins, and each Go function of `graw.go` is translated into a Lean
definition of the same name.
-/

namespace Graw

/-- A Go string, modelled as its list of characters. -/
abbrev GoStr := List Char

/-- Go `strings.Split(s, sep)` for a one-character separator `sep`:
splits `s` around every occurrence of `sep`; the result always has at least
one element, and `n` occurrences of `sep` yield `n + 1` (possibly empty)
fragments. -/
def stringsSplit (sep : Char) : GoStr → List GoStr
  | [] => [[]]
  | c :: cs =>
    let r := stringsSplit sep cs
    if c = sep then [] :: r
    else (c :: r.headD []) :: r.tail

/-- The contents of a Go `map[string]string`, as an association list
(one iteration order of the map; keys are pairwise distinct). -/
abbrev AttrMap := List (GoStr × GoStr)

/-- Lookup in the map model: the value stored at key `k`, if any. -/
def mapLookup (m : AttrMap) (k : GoStr) : Option GoStr :=
  match m with
  | [] => none
  | p :: rest => if p.1 = k then some p.2 else mapLookup rest k

/-- Go map assignment `m[k] = v`: any old binding of `k` is dropped and the
binding `k ↦ v` is stored (last write wins). -/
def mapInsert (m : AttrMap) (k v : GoStr) : AttrMap :=
  m.filter (fun p => p.1 ≠ k) ++ [(k, v)]

/-- `Style` (graw.go line 88): a map of key-value pairs describing the style
properties of a cell. -/
structure Style where
  Attributes : AttrMap
deriving DecidableEq

/-- `Style.MarshalXMLAttr` (graw.go lines 94-109), restricted to the attribute
text it builds: for each entry the key is appended, then, when the value is
non-empty, `=` and the value, then `;`.  The list order of `a.Attributes`
stands for the (unspecified) Go map iteration order. -/
def Style.marshalValue (a : Style) : GoStr :=
  a.Attributes.foldl
    (fun text p =>
      let text := text ++ p.1
      let text := if p.2 ≠ [] then text ++ [ '=' ] ++ p.2 else text
      text ++ [ ';' ])
    []

/-- An XML attribute (`xml.Attr`), reduced to the local name and the value. -/
structure XmlAttr where
  Name : GoStr
  Value : GoStr
deriving DecidableEq

/-- `Style.MarshalXMLAttr` (graw.go lines 94-109): returns the attribute
named `style` carrying the encoded text, and a `nil` error. -/
def Style.MarshalXMLAttr (a : Style) : XmlAttr × Option GoStr :=
  ({ Name := [ 's', 't', 'y', 'l', 'e' ], Value := a.marshalValue }, none)

/-- `Style.UnmarshalXMLAttr` (graw.go lines 113-126): `a` is the receiver
before the call (its contents are discarded by `a.Attributes = make(...)`),
`value` is the attribute text.  Returns the updated receiver and the `nil`
error. -/
def Style.UnmarshalXMLAttr (a : Style) (value : GoStr) : Style × Option GoStr :=
  let _ := a
  let attrs : AttrMap := []
  let pairs := stringsSplit ';' value
  let attrs := pairs.foldl
    (fun m pair =>
      let kv := stringsSplit '=' pair
      let kv := if kv.length < 2 then kv ++ [[]] else kv
      mapInsert m (kv.headD []) (kv.getD 1 []))
    attrs
  ({ Attributes := attrs }, none)

/-- `topCellId` (graw.go line 9). -/
def topCellId : GoStr := "0".toList

/-- `rootCellID` (graw.go line 10). -/
def rootCellID : GoStr := "1".toList

/-- `Point` (graw.go lines 79-84): a labeled coordinate inside a geometry. -/
structure Point where
  X : Int
  Y : Int
  As : GoStr
deriving DecidableEq

/-- `Geometry` (graw.go lines 63-72): position and size of a cell.  The Go
`*Point` field is an optional owned point. -/
structure Geometry where
  X : Int
  Y : Int
  Width : GoStr
  Height : GoStr
  Relative : GoStr
  As : GoStr
  Point : Option Point
deriving DecidableEq

/-- `Cell` (graw.go lines 44-55): one diagram element.  The Go `*Geometry`
field is an optional owned geometry. -/
structure Cell where
  ID : GoStr
  Value : GoStr
  Style : Style
  ParentID : GoStr
  Vertex : GoStr
  Edge : GoStr
  Source : GoStr
  Target : GoStr
  Geometry : Option Geometry
deriving DecidableEq

/-- `GraphModel` (graw.go lines 16-38): the document root. -/
structure GraphModel where
  Dx : Int
  Dy : Int
  Grid : GoStr
  GridSize : GoStr
  Guides : GoStr
  Tooltips : GoStr
  Connect : GoStr
  Arrows : GoStr
  Fold : GoStr
  Page : GoStr
  PageScale : GoStr
  PageWidth : GoStr
  PageHeight : GoStr
  Background : GoStr
  Math : GoStr
  Shadow : GoStr
  Root : List Cell
deriving DecidableEq

/-- The zero value of a Go `Cell` (all strings empty, style map nil,
geometry pointer nil), used for Go composite literals that set only
some fields. -/
def zeroCell : Cell :=
  { ID := [], Value := [], Style := ⟨[]⟩, ParentID := [], Vertex := [],
    Edge := [], Source := [], Target := [], Geometry := none }

/-- The zero value of a Go `GraphModel` but for the fields a composite
literal sets explicitly. -/
def zeroGraph : GraphModel :=
  { Dx := 0, Dy := 0, Grid := [], GridSize := [], Guides := [], Tooltips := [],
    Connect := [], Arrows := [], Fold := [], Page := [], PageScale := [],
    PageWidth := [], PageHeight := [], Background := [], Math := [],
    Shadow := [], Root := [] }

/-- `NewGraph` (graw.go lines 130-147): a fresh model with the canvas-root
cell and the default-layer cell, both styled `html=1`. -/
def NewGraph : GraphModel :=
  let rootStyle : Style := ⟨mapInsert [] ("html".toList) ("1".toList)⟩
  { zeroGraph with
    Dx := 640
    Dy := 480
    Root := [
      { zeroCell with ID := topCellId, Style := rootStyle },
      { zeroCell with
          ID := rootCellID
          ParentID := topCellId
          Style := rootStyle }] }

/-- `GraphModel.Add` (graw.go lines 151-154): appends a copy of the given
cell to the root sequence of the receiving model and returns the receiver. -/
def GraphModel.Add (g : GraphModel) (c : Cell) : GraphModel :=
  { g with Root := g.Root ++ [c] }

/-- `newCell` (graw.go lines 194-200). -/
def newCell (id layerId : GoStr) : Cell :=
  { zeroCell with ID := id, ParentID := layerId }

/-- `newGeometry` (graw.go lines 204-210). -/
def newGeometry : Geometry :=
  { X := 10, Y := 10, Width := [], Height := [], Relative := [],
    As := "geometry".toList, Point := none }

/-- `NewShape` (graw.go lines 159-164). -/
def NewShape (id layerId : GoStr) : Cell :=
  let s := newCell id layerId
  let s := { s with Vertex := "1".toList }
  let s := { s with Geometry := some newGeometry }
  s

/-- `NewImage` (graw.go lines 170-180): NewShape, then the style is replaced
by the three-entry image style map (written in one Go map literal order). -/
def NewImage (id layerId url : GoStr) : Cell :=
  let i := NewShape id layerId
  let i := { i with Style := ⟨[("shape".toList, "image".toList),
    ("imageAspect".toList, "0".toList), ("image".toList, url)]⟩ }
  i

/-- `NewImageXY` (graw.go lines 185-190): NewImage, then the Go code assigns
`i.Geometry.X = x` and next `i.Geometry.X = y` (the second assignment again
targets `X`).  `NewImage` always sets a geometry, so the dereference is
modelled with `Option.getD`. -/
def NewImageXY (id layerId url : GoStr) (x y : Int) : Cell :=
  let i := NewImage id layerId url
  let g := i.Geometry.getD newGeometry
  let g := { g with X := x }
  let g := { g with X := y }
  { i with Geometry := some g }

/-- The entry a single fragment contributes in `Style.UnmarshalXMLAttr`:
the fragment is split on `=`, padded with an empty component when it has
fewer than two, and components 0 and 1 become key and value. -/
def entryOfFragment (pair : GoStr) : GoStr × GoStr :=
  let kv := stringsSplit '=' pair
  let kv := if kv.length < 2 then kv ++ [[]] else kv
  (kv.headD [], kv.getD 1 [])

/-- Folding Go map assignment over a list of entries. -/
def insertAll (m : AttrMap) (es : List (GoStr × GoStr)) : AttrMap :=
  es.foldl (fun m e => mapInsert m e.1 e.2) m

theorem stringsSplit_ne_nil (sep : Char) (l : GoStr) : stringsSplit sep l ≠ [] := by
  cases l with
  | nil => simp [stringsSplit]
  | cons c cs =>
    simp only [stringsSplit]
    split <;> simp

theorem stringsSplit_no_sep (sep : Char) (l : GoStr) (h : sep ∉ l) :
    stringsSplit sep l = [l] := by
  induction l with
  | nil => rfl
  | cons c cs ih =>
    simp only [List.mem_cons, not_or] at h
    simp only [stringsSplit, ih h.2]
    rw [if_neg (fun hc => h.1 hc.symm)]
    rfl

theorem stringsSplit_append (sep : Char) (l₁ l₂ : GoStr) (h : sep ∉ l₁) :
    stringsSplit sep (l₁ ++ sep :: l₂) = l₁ :: stringsSplit sep l₂ := by
  induction l₁ with
  | nil => simp [stringsSplit]
  | cons c cs ih =>
    simp only [List.mem_cons, not_or] at h
    show stringsSplit sep (c :: (cs ++ sep :: l₂)) = (c :: cs) :: stringsSplit sep l₂
    simp only [stringsSplit]
    rw [if_neg (fun hc => h.1 hc.symm), ih h.2]
    rfl

theorem stringsSplit_headD (sep : Char) (l : GoStr) :
    (stringsSplit sep l).headD [] = l.takeWhile (· ≠ sep) := by
  induction l with
  | nil => rfl
  | cons c cs ih =>
    simp only [stringsSplit, List.takeWhile_cons]
    by_cases hc : c = sep
    · simp [hc]
    · rw [if_neg hc]
      simp only [List.headD_cons, ih]
      rw [if_pos (by simpa using hc)]

theorem stringsSplit_of_mem (sep : Char) (l : GoStr) (h : sep ∈ l) :
    stringsSplit sep l =
      l.takeWhile (· ≠ sep) ::
        stringsSplit sep ((l.dropWhile (· ≠ sep)).drop 1) := by
  induction l with
  | nil => cases h
  | cons c cs ih =>
    by_cases hc : c = sep
    · subst hc
      have ht : List.takeWhile (fun x => decide (x ≠ c)) (c :: cs) = [] := by simp
      have hd : List.dropWhile (fun x => decide (x ≠ c)) (c :: cs) = c :: cs := by simp
      simp only [ne_eq] at ht hd ⊢
      rw [ht, hd]
      simp [stringsSplit]
    · have hmem : sep ∈ cs := by
        rcases List.mem_cons.mp h with h1 | h1
        · exact absurd h1.symm hc
        · exact h1
      have hcb : decide (c ≠ sep) = true := by simpa using hc
      have ht : List.takeWhile (fun x => decide (x ≠ sep)) (c :: cs) =
          c :: List.takeWhile (fun x => decide (x ≠ sep)) cs := by
        rw [List.takeWhile_cons, if_pos hcb]
      have hd : List.dropWhile (fun x => decide (x ≠ sep)) (c :: cs) =
          List.dropWhile (fun x => decide (x ≠ sep)) cs := by
        rw [List.dropWhile_cons, if_pos hcb]
      simp only [ne_eq] at ht hd ⊢
      rw [ht, hd]
      simp only [stringsSplit, if_neg hc, ih hmem]
      rfl

theorem mapLookup_append (l₁ l₂ : AttrMap) (k : GoStr) :
    mapLookup (l₁ ++ l₂) k = (mapLookup l₁ k).or (mapLookup l₂ k) := by
  induction l₁ with
  | nil => simp [mapLookup]
  | cons p rest ih =>
    simp only [List.cons_append, mapLookup]
    by_cases hp : p.1 = k
    · simp [hp]
    · simp [hp, ih]

theorem mapLookup_eq_none (l : AttrMap) (k : GoStr) (h : k ∉ l.map Prod.fst) :
    mapLookup l k = none := by
  induction l with
  | nil => rfl
  | cons p rest ih =>
    simp only [List.map_cons, List.mem_cons, not_or] at h
    simp only [mapLookup]
    rw [if_neg (fun hc => h.1 hc.symm)]
    exact ih h.2

theorem mapLookup_mapInsert (m : AttrMap) (k v k' : GoStr) :
    mapLookup (mapInsert m k v) k' = if k = k' then some v else mapLookup m k' := by
  induction m with
  | nil =>
    simp [mapInsert, mapLookup]
  | cons p rest ih =>
    by_cases hp : p.1 = k
    · have hf : mapInsert (p :: rest) k v = mapInsert rest k v := by
        simp [mapInsert, List.filter_cons, hp]
      rw [hf, ih]
      by_cases hk : k = k'
      · rw [if_pos hk, if_pos hk]
      · rw [if_neg hk, if_neg hk]
        have hpk : ¬ p.1 = k' := fun hc => hk (hp.symm.trans hc)
        simp [mapLookup, hpk]
    · have hf : mapInsert (p :: rest) k v = p :: mapInsert rest k v := by
        simp [mapInsert, List.filter_cons, hp]
      rw [hf]
      by_cases hpk : p.1 = k'
      · have hk : ¬ k = k' := fun hc => hp (hpk.trans hc.symm)
        rw [if_neg hk]
        simp [mapLookup, hpk]
      · simp only [mapLookup, if_neg hpk]
        exact ih

theorem mapLookup_insertAll (es : List (GoStr × GoStr)) (m : AttrMap) (k : GoStr) :
    mapLookup (insertAll m es) k = (mapLookup es.reverse k).or (mapLookup m k) := by
  induction es generalizing m with
  | nil => simp [insertAll, mapLookup]
  | cons e rest ih =>
    simp only [insertAll, List.foldl_cons, List.reverse_cons] at ih ⊢
    rw [ih (mapInsert m e.1 e.2), mapLookup_append, Option.or_assoc]
    congr 1
    rw [mapLookup_mapInsert]
    simp only [mapLookup]
    by_cases he : e.1 = k
    · simp [he]
    · rw [if_neg he, if_neg he]
      simp

theorem mapLookup_reverse (l : AttrMap) (k : GoStr)
    (h : (l.map Prod.fst).Nodup) : mapLookup l.reverse k = mapLookup l k := by
  induction l with
  | nil => rfl
  | cons p rest ih =>
    simp only [List.map_cons, List.nodup_cons] at h
    rw [List.reverse_cons, mapLookup_append, ih h.2]
    by_cases hp : p.1 = k
    · rw [mapLookup_eq_none rest k (by rw [← hp]; exact h.1)]
      simp [mapLookup, hp]
    · simp [mapLookup, hp, Option.or_none]

theorem unmarshal_attrs (a : Style) (s : GoStr) :
    (Style.UnmarshalXMLAttr a s).1.Attributes
      = insertAll [] ((stringsSplit ';' s).map entryOfFragment) := by
  simp only [insertAll, List.foldl_map]
  rfl

theorem entryOfFragment_nil : entryOfFragment [] = ([], []) := by decide

theorem entryOfFragment_render (k v : GoStr) (hk : '=' ∉ k) (hv : '=' ∉ v) :
    entryOfFragment (k ++ if v = [] then [] else '=' :: v) = (k, v) := by
  by_cases h : v = []
  · subst h
    have hfrag : (k ++ if ([] : GoStr) = [] then [] else '=' :: ([] : GoStr)) = k := by
      simp
    rw [hfrag]
    simp [entryOfFragment, stringsSplit_no_sep '=' k hk]
  · rw [if_neg h]
    simp [entryOfFragment, stringsSplit_append '=' k v hk,
      stringsSplit_no_sep '=' v hv]

theorem marshal_foldl (l : AttrMap) (t : GoStr) :
    l.foldl
      (fun text p =>
        let text := text ++ p.1
        let text := if p.2 ≠ [] then text ++ [ '=' ] ++ p.2 else text
        text ++ [ ';' ]) t
    = t ++ (l.map fun p =>
        (p.1 ++ (if p.2 = [] then [] else '=' :: p.2)) ++ [ ';' ]).flatten := by
  induction l generalizing t with
  | nil => simp
  | cons p rest ih =>
    simp only [List.foldl_cons, List.map_cons, List.flatten_cons, ih]
    by_cases hv : p.2 = []
    · simp [hv]
    · simp [hv, List.append_assoc]

theorem marshalValue_flatten (l : AttrMap) :
    Style.marshalValue ⟨l⟩
      = (l.map fun p =>
          (p.1 ++ (if p.2 = [] then [] else '=' :: p.2)) ++ [ ';' ]).flatten := by
  have h := marshal_foldl l []
  rw [List.nil_append] at h
  exact h

theorem stringsSplit_marshal (l : AttrMap)
    (h : ∀ p ∈ l, ';' ∉ p.1 ∧ ';' ∉ p.2) :
    stringsSplit ';' (Style.marshalValue ⟨l⟩)
      = (l.map fun p => p.1 ++ (if p.2 = [] then [] else '=' :: p.2)) ++ [[]] := by
  induction l with
  | nil =>
    simp [marshalValue_flatten, stringsSplit]
  | cons p rest ih =>
    have hp := h p (List.mem_cons_self p rest)
    have hmid : ';' ∉ p.1 ++ (if p.2 = [] then [] else '=' :: p.2) := by
      intro hmem
      rcases List.mem_append.mp hmem with h1 | h1
      · exact hp.1 h1
      · by_cases hv : p.2 = []
        · rw [if_pos hv] at h1
          cases h1
        · rw [if_neg hv] at h1
          rcases List.mem_cons.mp h1 with h2 | h2
          · cases h2
          · exact hp.2 h2
    have hrest : ∀ q ∈ rest, ';' ∉ q.1 ∧ ';' ∉ q.2 :=
      fun q hq => h q (List.mem_cons_of_mem p hq)
    rw [marshalValue_flatten] at ih ⊢
    simp only [List.map_cons, List.flatten_cons]
    have hshape :
        ((p.1 ++ (if p.2 = [] then [] else '=' :: p.2)) ++ [ ';' ]) ++
            (rest.map fun q =>
              (q.1 ++ (if q.2 = [] then [] else '=' :: q.2)) ++ [ ';' ]).flatten
          = (p.1 ++ (if p.2 = [] then [] else '=' :: p.2)) ++
              ';' :: (rest.map fun q =>
                (q.1 ++ (if q.2 = [] then [] else '=' :: q.2)) ++ [ ';' ]).flatten := by
      simp [List.append_assoc]
    rw [hshape, stringsSplit_append ';' _ _ hmid, ih hrest]
    rfl

theorem unmarshal_marshal (a : Style) (l : AttrMap)
    (hok : ∀ p ∈ l, (';' ∉ p.1 ∧ '=' ∉ p.1) ∧ (';' ∉ p.2 ∧ '=' ∉ p.2)) :
    (Style.UnmarshalXMLAttr a (Style.marshalValue ⟨l⟩)).1.Attributes
      = insertAll [] (l ++ [([], [])]) := by
  rw [unmarshal_attrs, stringsSplit_marshal l
    (fun p hp => ⟨((hok p hp).1).1, ((hok p hp).2).1⟩)]
  rw [List.map_append]
  have h1 : List.map entryOfFragment
      (l.map fun p => p.1 ++ (if p.2 = [] then [] else '=' :: p.2)) = l := by
    rw [List.map_map]
    have hcongr : ∀ p ∈ l,
        (entryOfFragment ∘ fun q => q.1 ++ (if q.2 = [] then [] else '=' :: q.2)) p
          = id p := by
      intro p hp
      show entryOfFragment (p.1 ++ (if p.2 = [] then [] else '=' :: p.2)) = p
      rw [entryOfFragment_render p.1 p.2 ((hok p hp).1).2 ((hok p hp).2).2]
    rw [List.map_congr_left hcongr, List.map_id]
  have h2 : List.map entryOfFragment [([] : GoStr)] = [([], [])] := by
    simp [entryOfFragment_nil]
  rw [h1, h2]

theorem entryOfFragment_spec (f : GoStr) :
    entryOfFragment f =
      (f.takeWhile (· ≠ '='),
        ((f.dropWhile (· ≠ '=')).drop 1).takeWhile (· ≠ '=')) := by
  by_cases h : '=' ∈ f
  · have hsplit := stringsSplit_of_mem '=' f h
    obtain ⟨x, r, hr⟩ : ∃ x r,
        stringsSplit '=' ((f.dropWhile (· ≠ '=')).drop 1) = x :: r := by
      cases hsep : stringsSplit '=' ((f.dropWhile (· ≠ '=')).drop 1) with
      | nil => exact absurd hsep (stringsSplit_ne_nil _ _)
      | cons x r => exact ⟨x, r, rfl⟩
    have hx : x = ((f.dropWhile (· ≠ '=')).drop 1).takeWhile (· ≠ '=') := by
      have hh := stringsSplit_headD '=' ((f.dropWhile (· ≠ '=')).drop 1)
      rw [hr] at hh
      simpa using hh
    rw [hr] at hsplit
    simp only [entryOfFragment, hsplit]
    rw [if_neg (by simp)]
    simp [hx]
  · have hsplit := stringsSplit_no_sep '=' f h
    have ht : f.takeWhile (· ≠ '=') = f :=
      List.takeWhile_eq_self_iff.mpr (fun x hx => by
        simp only [ne_eq, decide_eq_true_eq]
        intro heq
        exact h (heq ▸ hx))
    have hd : f.dropWhile (· ≠ '=') = [] :=
      List.dropWhile_eq_nil_iff.mpr (fun x hx => by
        simp only [ne_eq, decide_eq_true_eq]
        intro heq
        exact h (heq ▸ hx))
    simp only [entryOfFragment, hsplit, ht, hd]
    rw [if_pos (by simp)]
    rfl

theorem mapInsert_ne_nil (m : AttrMap) (k v : GoStr) : mapInsert m k v ≠ [] := by
  simp [mapInsert]

theorem insertAll_ne_nil (es : List (GoStr × GoStr)) (m : AttrMap)
    (h : es ≠ []) : insertAll m es ≠ [] := by
  induction es generalizing m with
  | nil => exact absurd rfl h
  | cons e rest ih =>
    show insertAll (mapInsert m e.1 e.2) rest ≠ []
    cases rest with
    | nil => exact mapInsert_ne_nil m e.1 e.2
    | cons e2 r2 => exact ih (mapInsert m e.1 e.2) (by simp)

/-- C1 (counterexample to the claim as stated): the empty mapping has no `;`
or `=` in any key or value, yet decoding the string produced by encoding it
does not yield a mapping equal to it: the encoder's trailing `;` convention
makes the decoder add the entry `"" ↦ ""`, so the decoded map differs from
the empty map at the empty key. -/
theorem C1_roundtrip_counterexample :
    ¬ ∀ k, mapLookup
        (Style.UnmarshalXMLAttr ⟨[]⟩ (Style.marshalValue ⟨[]⟩)).1.Attributes k
        = mapLookup ([] : AttrMap) k :=
  fun h => absurd (h []) (by decide)

/-- C1 (amended): for every style mapping `m` (given as a duplicate-free
iteration order of its entries) whose keys and values contain no `;` and no
`=`, decoding the string produced by encoding `m` yields the mapping that
agrees with `m` on every key except that it always maps the empty key to the
empty value (the entry contributed by the final empty fragment after the
trailing `;`). -/
theorem C1_roundtrip_amended (a : Style) (l : AttrMap)
    (hnd : (l.map Prod.fst).Nodup)
    (hok : ∀ p ∈ l, (';' ∉ p.1 ∧ '=' ∉ p.1) ∧ (';' ∉ p.2 ∧ '=' ∉ p.2))
    (k : GoStr) :
    mapLookup (Style.UnmarshalXMLAttr a (Style.marshalValue ⟨l⟩)).1.Attributes k
      = if k = [] then some [] else mapLookup l k := by
  rw [unmarshal_marshal a l hok, mapLookup_insertAll, List.reverse_append]
  simp only [List.reverse_cons, List.reverse_nil, List.nil_append,
    List.singleton_append]
  by_cases hk : k = []
  · subst hk
    simp [mapLookup]
  · have hcons : mapLookup ((([] : GoStr), ([] : GoStr)) :: l.reverse) k
        = mapLookup l.reverse k := by
      simp only [mapLookup]
      rw [if_neg (fun hc => hk hc.symm)]
    rw [hcons, mapLookup_reverse l k hnd, if_neg hk]
    simp [mapLookup, Option.or_none]

/-- Witness for C1 (amended) at the one-entry mapping `{"a" ↦ "1"}`. -/
theorem C1_roundtrip_amended_witness :
    mapLookup (Style.UnmarshalXMLAttr ⟨[]⟩
        (Style.marshalValue ⟨[([ 'a' ], [ '1' ])]⟩)).1.Attributes [ 'a' ]
      = if ([ 'a' ] : GoStr) = [] then some []
        else mapLookup [(([ 'a' ] : GoStr), ([ '1' ] : GoStr))] [ 'a' ] :=
  C1_roundtrip_amended ⟨[]⟩ [([ 'a' ], [ '1' ])] (by decide) (by decide) [ 'a' ]

/-- C2 (counterexample to the claim as stated): on the input `"a=b=c"` the
claim's rule (the value is everything after the first `=`) would store
`"a" ↦ "b=c"`, but `Style.UnmarshalXMLAttr` stores `"a" ↦ "b"`: Go's
`strings.Split` cuts the fragment at every `=` and the code keeps only
component 1. -/
theorem C2_decode_counterexample :
    mapLookup (Style.UnmarshalXMLAttr ⟨[]⟩ ("a=b=c".toList)).1.Attributes
        ("a".toList) = some ("b".toList)
      ∧ ¬ mapLookup (Style.UnmarshalXMLAttr ⟨[]⟩ ("a=b=c".toList)).1.Attributes
        ("a".toList) = some ("b=c".toList) := by
  constructor
  · decide
  · decide

/-- C2 (amended): for every receiver and every input string, decoding splits
the input on `;` into fragments and, for each fragment in order, takes as key
the text before the first `=` and as value the text strictly between the
first and the second `=` (everything from the second `=` on is discarded; a
fragment with no `=` gets the empty value), entering the pairs with
last-write-wins map assignment; and on `"a=1;b=2;"` the trailing `;` yields a
final empty fragment whose entry maps the empty key to the empty value. -/
theorem C2_decode_amended (a : Style) (s : GoStr) :
    (Style.UnmarshalXMLAttr a s).1.Attributes
      = insertAll []
          ((stringsSplit ';' s).map fun f =>
            (f.takeWhile (· ≠ '='),
              ((f.dropWhile (· ≠ '=')).drop 1).takeWhile (· ≠ '=')))
      ∧ mapLookup (Style.UnmarshalXMLAttr a ("a=1;b=2;".toList)).1.Attributes []
          = some [] := by
  constructor
  · rw [unmarshal_attrs]
    congr 1
    exact List.map_congr_left (fun f _ => entryOfFragment_spec f)
  · have hrepl : (Style.UnmarshalXMLAttr a ("a=1;b=2;".toList)).1
        = (Style.UnmarshalXMLAttr ⟨[]⟩ ("a=1;b=2;".toList)).1 := rfl
    rw [hrepl]
    decide

/-- C8: `Style.MarshalXMLAttr` renders every entry, in the (arbitrary)
iteration order carried by the attribute list, as `key;` when the value is
empty and as `key=value;` otherwise, with no escaping, and the encoding of
the empty mapping is the empty string. -/
theorem C8_marshal_render (a : Style) :
    (Style.MarshalXMLAttr a).1.Value
      = (a.Attributes.map fun p =>
          if p.2 = [] then p.1 ++ [ ';' ]
          else p.1 ++ '=' :: (p.2 ++ [ ';' ])).flatten
      ∧ (Style.MarshalXMLAttr ⟨[]⟩).1.Value = [] := by
  constructor
  · obtain ⟨l⟩ := a
    show Style.marshalValue ⟨l⟩ = _
    rw [marshalValue_flatten]
    congr 1
    refine List.map_congr_left (fun p _ => ?_)
    by_cases hv : p.2 = []
    · simp [hv]
    · simp [hv]
  · rfl

/-- C9: style decoding never fails: for every receiver and every input
attribute string, `Style.UnmarshalXMLAttr` returns a `nil` error (and, being
a total function, always produces a mapping). -/
theorem C9_unmarshal_no_error (a : Style) (s : GoStr) :
    (Style.UnmarshalXMLAttr a s).2 = none := rfl

/-- C10: `Style.UnmarshalXMLAttr` replaces the receiver's map wholesale (the
result does not depend on the mapping held before the call), the resulting
map is never empty (splitting always yields at least one fragment), and
decoding the empty string yields exactly the single entry `"" ↦ ""`. -/
theorem C10_unmarshal_wholesale (a₁ a₂ : Style) (s : GoStr) :
    (Style.UnmarshalXMLAttr a₁ s).1 = (Style.UnmarshalXMLAttr a₂ s).1
      ∧ (Style.UnmarshalXMLAttr a₁ s).1.Attributes ≠ []
      ∧ (Style.UnmarshalXMLAttr a₁ ([] : GoStr)).1.Attributes = [([], [])] := by
  refine ⟨rfl, ?_, rfl⟩
  rw [unmarshal_attrs]
  exact insertAll_ne_nil _ []
    (by
      rw [Ne, List.map_eq_nil_iff]
      exact stringsSplit_ne_nil ';' s)

/-- C3: for every id, parent id, url and integer arguments `x` and `y`,
`NewImageXY` returns a cell whose geometry has `X` equal to the `y` argument
and `Y` equal to the default 10, regardless of `x`: the source assigns
`i.Geometry.X` twice (once from `x`, once from `y`) and never assigns `Y`. -/
theorem C3_newImageXY_defect (id layerId url : GoStr) (x y : Int) :
    (NewImageXY id layerId url x y).Geometry.map Geometry.X = some y
      ∧ (NewImageXY id layerId url x y).Geometry.map Geometry.Y = some 10 :=
  ⟨rfl, rfl⟩

/-- C4: `NewGraph` returns a model with `Dx = 640`, `Dy = 480` and exactly
two cells: the first with id `"0"`, no parent and style `{html ↦ 1}`, the
second with id `"1"`, parent equal to the first cell's id `"0"`, and the same
style. -/
theorem C4_newGraph_seed :
    NewGraph.Dx = 640 ∧ NewGraph.Dy = 480
      ∧ NewGraph.Root.length = 2
      ∧ (NewGraph.Root.getD 0 zeroCell).ID = "0".toList
      ∧ (NewGraph.Root.getD 0 zeroCell).ParentID = []
      ∧ (NewGraph.Root.getD 0 zeroCell).Style.Attributes
          = [("html".toList, "1".toList)]
      ∧ (NewGraph.Root.getD 1 zeroCell).ID = "1".toList
      ∧ (NewGraph.Root.getD 1 zeroCell).ParentID
          = (NewGraph.Root.getD 0 zeroCell).ID
      ∧ (NewGraph.Root.getD 1 zeroCell).Style
          = (NewGraph.Root.getD 0 zeroCell).Style := by
  decide

/-- C5: `Add` appends a copy of the given cell at the end of the root
sequence, leaves every previously stored cell unchanged, changes no other
field of the model (the Go function returns the very receiver it updated),
and the stored entry is the snapshot of the cell at the time of the call: a
later mutation of the original cell's `Value` leaves the stored copy
different from the mutated cell. -/
theorem C5_add_append (g : GraphModel) (c : Cell) (v : GoStr) :
    (g.Add c).Root = g.Root ++ [c]
      ∧ (g.Add c).Root.take g.Root.length = g.Root
      ∧ { g.Add c with Root := g.Root } = g
      ∧ (g.Add c).Root.getLast? = some c
      ∧ (v ≠ c.Value → (g.Add c).Root.getLast? ≠ some { c with Value := v }) := by
  refine ⟨rfl, ?_, ?_, ?_, ?_⟩
  · show (g.Root ++ [c]).take g.Root.length = g.Root
    exact List.take_left g.Root [c]
  · cases g
    rfl
  · show (g.Root ++ [c]).getLast? = some c
    exact List.getLast?_concat g.Root
  · intro hne hcon
    rw [show (g.Add c).Root = g.Root ++ [c] from rfl,
      List.getLast?_concat g.Root] at hcon
    have h1 : c = { c with Value := v } := by
      simpa using hcon
    have h2 := congrArg Cell.Value h1
    simp only at h2
    exact hne h2.symm

/-- Witness for the mutation clause of C5: adding the zero cell to a fresh
graph and then changing the original's `Value` to `"x"` leaves the stored
copy different from the mutated cell. -/
theorem C5_add_append_witness :
    (NewGraph.Add zeroCell).Root.getLast?
      ≠ some { zeroCell with Value := [ 'x' ] } :=
  (C5_add_append NewGraph zeroCell [ 'x' ]).2.2.2.2 (by decide)

/-- C6: `NewImage` returns the cell built by `NewShape` with its style
replaced wholesale (not merged) by exactly the mapping
`{shape ↦ image, imageAspect ↦ 0, image ↦ url}`: every non-style field is
the `NewShape` one, the style before the replacement was the empty map, and
the resulting style holds exactly the three entries. -/
theorem C6_newImage_style_replacement (id layerId url : GoStr) :
    (∀ k, mapLookup (NewImage id layerId url).Style.Attributes k
        = mapLookup [("shape".toList, "image".toList),
            ("imageAspect".toList, "0".toList), ("image".toList, url)] k)
      ∧ { NewImage id layerId url with Style := (NewShape id layerId).Style }
          = NewShape id layerId
      ∧ (NewShape id layerId).Style.Attributes = [] :=
  ⟨fun _ => rfl, rfl, rfl⟩

/-- C7: `NewShape` returns a vertex cell: `Vertex = "1"`, the given id and
parent id, a geometry with `x = 10`, `y = 10` and `as = "geometry"` (and no
width, height, relative flag or point), an empty style and no value. -/
theorem C7_newShape_defaults (id layerId : GoStr) :
    (NewShape id layerId).Vertex = "1".toList
      ∧ (NewShape id layerId).ID = id
      ∧ (NewShape id layerId).ParentID = layerId
      ∧ (NewShape id layerId).Geometry
          = some (⟨10, 10, [], [], [], "geometry".toList, none⟩ : Geometry)
      ∧ (NewShape id layerId).Style.Attributes = []
      ∧ (NewShape id layerId).Value = [] :=
  ⟨rfl, rfl, rfl, rfl, rfl, rfl⟩

end Graw
